import Mathlib

/-!
Verification of `sfs/time/source.py` (time-domain point-source sound fields).

The embedding models real-valued numpy arithmetic with `ℝ`.  A spatial grid
(three broadcastable coordinate components in the source) is modelled as the
list of its broadcast grid points, each a 3-vector; a field is the list of the
real pressure values at those points.  `np.interp`, which raises `ValueError`
when its array of sample points is empty, is modelled as an `Option`-valued
computation that is `none` exactly in that error case.
-/

namespace SFS

/-- A 3-vector of real cartesian coordinates. -/
structure Vec3 where
  x : ℝ
  y : ℝ
  z : ℝ

/-- Euclidean distance between two 3-vectors: `np.linalg.norm (grid - xs)`
evaluated at one broadcast grid point. -/
noncomputable def dist3 (a b : Vec3) : ℝ :=
  Real.sqrt ((a.x - b.x) ^ 2 + (a.y - b.y) ^ 2 + (a.z - b.z) ^ 2)

/-- The normalized excitation signal, as produced by `util.as_delayed_signal`:
mono audio samples, a sample rate, and the causal offset (time of sample 0).
A raw `(data, samplerate)` pair normalizes to `signal_offset = 0`. -/
structure DelayedSignal where
  data : List ℝ
  samplerate : ℝ
  signal_offset : ℝ

/-- Default speed of sound `sfs.defs.c`, used when the caller passes `c=None`. -/
def defs_c : ℝ := 343

/-- The signal's time axis `np.arange(len(data)) / samplerate`. -/
noncomputable def timeAxis (n : ℕ) (samplerate : ℝ) : List ℝ :=
  (List.range n).map (fun i => (i : ℝ) / samplerate)

/-- One-dimensional linear interpolation over a list of `(x, y)` sample points
with strictly increasing `x`, as computed by `np.interp` with `left=0` and
`right=0`: queries strictly before the first sample point or strictly after
the last evaluate to `0`; a query inside segment `[xj, xj+1]` evaluates to
`yj + (yj+1 - yj) * (x - xj) / (xj+1 - xj)`.  The empty-sample-point error
case is handled by the caller (`point`). -/
noncomputable def interpSorted (t : ℝ) : List (ℝ × ℝ) → ℝ
  | [] => 0
  | [p] => if t = p.1 then p.2 else 0
  | p :: q :: rest =>
      if t < p.1 then 0
      else if t ≤ q.1 then p.2 + (q.2 - p.2) * (t - p.1) / (q.1 - p.1)
      else interpSorted t (q :: rest)

/-- The value of the field of `point` at one broadcast grid point `g`:
`weights * np.interp(base_time - delays, np.arange(len(data))/samplerate,
data, left=0, right=0)` with `weights = 1/(4*pi*r)`, `delays = r/c`,
`base_time = observation_time - signal_offset`, `r = |g - xs|`. -/
noncomputable def pointValue (xs : Vec3) (signal : DelayedSignal)
    (observation_time : ℝ) (c : ℝ) (g : Vec3) : ℝ :=
  let r := dist3 g xs
  let weights := 1 / (4 * Real.pi * r)
  let delays := r / c
  let base_time := observation_time - signal.signal_offset
  weights * interpSorted (base_time - delays)
    ((timeAxis signal.data.length signal.samplerate).zip signal.data)

/-- The field of `point` over the whole grid (one value per grid point),
in the non-error case. -/
noncomputable def pointField (xs : Vec3) (signal : DelayedSignal)
    (observation_time : ℝ) (grid : List Vec3) (c : ℝ) : List ℝ :=
  grid.map (pointValue xs signal observation_time c)

/-- Source model for a point source (`sfs.time.source.point`).  Returns `none`
exactly when `np.interp` raises on an empty array of sample points, i.e. when
the signal has no samples; otherwise the scalar pressure field over the grid.
`c = none` means the Python default `c=None`, which falls back to `defs.c`. -/
noncomputable def point (xs : Vec3) (signal : DelayedSignal)
    (observation_time : ℝ) (grid : List Vec3) (copt : Option ℝ) :
    Option (List ℝ) :=
  let c := copt.getD defs_c
  if signal.data.isEmpty then none
  else some (pointField xs signal observation_time grid c)

/-- Index range `-N .. N` of per-axis image indices. -/
def indexRange (N : ℕ) : List ℤ :=
  (List.range (2 * N + 1)).map (fun (i : ℕ) => (i : ℤ) - (N : ℤ))

/-- Modelled from the spec: the per-axis position of the image with index `a`
for a source coordinate `x` in a room of extent `L` along that axis.  Mirror
images along one axis lie at `a*L + x` for even `a` and `a*L + (L - x)` for
odd `a` (successive reflections across the walls at `0` and `L`). -/
noncomputable def imagePos1d (x L : ℝ) (a : ℤ) : ℝ :=
  (a : ℝ) * L + (if a % 2 = 0 then x else L - x)

/-- Modelled from the spec: number of reflections of the 1-D image with
index `a` off the wall at the low end of the axis, `|floor (a / 2)|`. -/
def wallCountLow (a : ℤ) : ℕ :=
  if 0 ≤ a then a.toNat / 2 else (a.natAbs + 1) / 2

/-- Modelled from the spec: number of reflections of the 1-D image with
index `a` off the wall at the high end of the axis, `|ceil (a / 2)|`. -/
def wallCountHigh (a : ℤ) : ℕ :=
  if 0 ≤ a then (a.toNat + 1) / 2 else a.natAbs / 2

/-- Modelled from the spec: the 6-vector of per-wall reflection counts of the
image with index triple `(a, b, c)`, walls ordered `-x,+x,-y,+y,-z,+z`. -/
def wallOrder (a b c : ℤ) : Fin 6 → ℕ :=
  ![wallCountLow a, wallCountHigh a, wallCountLow b, wallCountHigh b,
    wallCountLow c, wallCountHigh c]

/-- Modelled from the spec: the geometric enumeration primitive
`sfs.util.image_sources_for_box` (code outside this module).  For a source
`x0` in a rectangular room with extents `L`, it returns, for every index
triple `(a, b, c)` with `|a| + |b| + |c| ≤ max_order`, the mirror-image
position together with its per-wall reflection counts; the total number of
reflections of each image is at most `max_order`, and the index triple
`(0,0,0)` yields the real source itself with all counts zero. -/
noncomputable def image_sources_for_box (x0 : Vec3) (L : Vec3) (max_order : ℕ) :
    List (Vec3 × (Fin 6 → ℕ)) :=
  (indexRange max_order).flatMap (fun a =>
    (indexRange max_order).flatMap (fun b =>
      (indexRange max_order).filterMap (fun c =>
        if a.natAbs + b.natAbs + c.natAbs ≤ max_order then
          some (⟨imagePos1d x0.x L.x a, imagePos1d x0.y L.y b,
                 imagePos1d x0.z L.z c⟩, wallOrder a b c)
        else none)))

/-- Strength of one image: `np.prod(coeffs**order, axis=1)` for one row, i.e.
the product of the six elementwise powers `coeffs[i] ** order[i]`. -/
def sourceStrength (coeffs : Fin 6 → ℝ) (o : Fin 6 → ℕ) : ℝ :=
  ((List.finRange 6).map (fun i => coeffs i ^ o i)).prod

/-- Elementwise sum of two fields (`p += ...` on numpy arrays). -/
def fieldAdd (p f : List ℝ) : List ℝ := List.zipWith (· + ·) p f

/-- A field scaled by a scalar (`strength * point(...)`). -/
def fieldScale (s : ℝ) (f : List ℝ) : List ℝ := f.map (fun v => s * v)

/-- The all-zero field over the grid.  The source initializes the accumulator
with the Python scalar `0`, which broadcasts to the grid shape on the first
array addition; since the enumeration always contains the real source, whose
strength is `prod coeffs**0 = 1 ≠ 0`, at least one addition always happens,
so the zero field of grid shape is a faithful initial accumulator. -/
def zeroField (grid : List Vec3) : List ℝ := grid.map (fun _ => (0 : ℝ))

/-- The superposition loop of `point_image_sources` over the zipped list of
image positions and strengths: images with strength exactly `0` are skipped,
every other image adds `strength * point(position, ...)` to the accumulator;
an error raised by `point` (empty signal) aborts the whole call. -/
noncomputable def imageLoop (signal : DelayedSignal) (observation_time : ℝ)
    (grid : List Vec3) (copt : Option ℝ) :
    List (Vec3 × ℝ) → List ℝ → Option (List ℝ)
  | [], p => some p
  | im :: rest, p =>
      if im.2 ≠ 0 then
        match point im.1 signal observation_time grid copt with
        | none => none
        | some f =>
            imageLoop signal observation_time grid copt rest
              (fieldAdd p (fieldScale im.2 f))
      else imageLoop signal observation_time grid copt rest p

/-- Point source in a rectangular room by the mirror image source model
(`sfs.time.source.point_image_sources`).  `coeffsopt = none` models the
Python default `coeffs=None`, which becomes `np.ones(6)`. -/
noncomputable def point_image_sources (x0 : Vec3) (signal : DelayedSignal)
    (observation_time : ℝ) (grid : List Vec3) (L : Vec3) (max_order : ℕ)
    (coeffsopt : Option (Fin 6 → ℝ)) (copt : Option ℝ) : Option (List ℝ) :=
  let coeffs := coeffsopt.getD (fun _ => (1 : ℝ))
  let ps := image_sources_for_box x0 L max_order
  let source_strengths := ps.map (fun im => sourceStrength coeffs im.2)
  imageLoop signal observation_time grid copt
    ((ps.map Prod.fst).zip source_strengths) (zeroField grid)

/-- Spec-side segment index for an in-range rescaled query `u = t*samplerate`:
the floor of `u` clamped to the next-to-last sample index.

Linear interpolation as worded in the spec (`spec_interp` below): the
signal's time axis is `index / sample_rate`; a query `t` strictly before the
first sample time `0` or strictly after the last sample time
`(N-1)/samplerate` evaluates to `0`; otherwise the value is taken on the
segment between floor-index `k` and `k + 1`,
`data[k] + (data[k+1] - data[k]) * (t*samplerate - k)`.  For an empty signal
every query is out of range. -/
noncomputable def specIdx (data : List ℝ) (u : ℝ) : ℕ :=
  min (Int.toNat ⌊u⌋) (data.length - 2)

/-- Value of the spec-side interpolation at an in-range query, on the segment
whose lower sample index is `k`. -/
noncomputable def specSegVal (data : List ℝ) (k : ℕ) (u : ℝ) : ℝ :=
  data.getD k 0 + (data.getD (k + 1) 0 - data.getD k 0) * (u - k)

noncomputable def spec_interp (data : List ℝ) (samplerate t : ℝ) : ℝ :=
  if t < 0 ∨ ((data.length : ℝ) - 1) / samplerate < t then 0
  else specSegVal data (specIdx data (t * samplerate)) (t * samplerate)

/-- Proof helper: the zipped sample points of a signal suffix whose first
sample has index `j`, built by direct recursion on the data. -/
noncomputable def sigPts (samplerate : ℝ) (j : ℕ) : List ℝ → List (ℝ × ℝ)
  | [] => []
  | d :: rest => ((j : ℝ) / samplerate, d) :: sigPts samplerate (j + 1) rest

/-- The plain unweighted sum of `point` at every given position, as worded in
the spec for the all-ones-coefficients case: no attenuation, nothing skipped;
an error from `point` aborts the call. -/
noncomputable def unweightedPointSum (signal : DelayedSignal)
    (observation_time : ℝ) (grid : List Vec3) (copt : Option ℝ) :
    List Vec3 → List ℝ → Option (List ℝ)
  | [], p => some p
  | pos :: rest, p =>
      match point pos signal observation_time grid copt with
      | none => none
      | some f =>
          unweightedPointSum signal observation_time grid copt rest
            (fieldAdd p f)

/-- The naive superposition as worded in the spec: every image is included,
weighted by its strength, with no zero-strength skip. -/
noncomputable def weightedSumAll (signal : DelayedSignal)
    (observation_time : ℝ) (grid : List Vec3) (copt : Option ℝ) :
    List (Vec3 × ℝ) → List ℝ → Option (List ℝ)
  | [], p => some p
  | im :: rest, p =>
      match point im.1 signal observation_time grid copt with
      | none => none
      | some f =>
          weightedSumAll signal observation_time grid copt rest
            (fieldAdd p (fieldScale im.2 f))

/-- The strictly negative half `-N .. -1` of the index range. -/
def negIdx (N : ℕ) : List ℤ :=
  (List.range N).map (fun (i : ℕ) => (i : ℤ) - (N : ℤ))

/-- The strictly positive half `1 .. N` of the index range. -/
def posIdx (N : ℕ) : List ℤ :=
  (List.range N).map (fun (i : ℕ) => (i : ℤ) + 1)

/-- One slot of the enumeration: the image of index triple `(a, b, c)` when
its total reflection count fits the bound, else nothing. -/
noncomputable def isfbCell (x0 L : Vec3) (N : ℕ) (a b c : ℤ) :
    Option (Vec3 × (Fin 6 → ℕ)) :=
  if a.natAbs + b.natAbs + c.natAbs ≤ N then
    some (⟨imagePos1d x0.x L.x a, imagePos1d x0.y L.y b,
           imagePos1d x0.z L.z c⟩, wallOrder a b c)
  else none

/-- The row of images with fixed first two indices. -/
noncomputable def isfbRow (x0 L : Vec3) (N : ℕ) (a b : ℤ) :
    List (Vec3 × (Fin 6 → ℕ)) :=
  (indexRange N).filterMap (isfbCell x0 L N a b)

/-- The plane of images with fixed first index. -/
noncomputable def isfbPlane (x0 L : Vec3) (N : ℕ) (a : ℤ) :
    List (Vec3 × (Fin 6 → ℕ)) :=
  (indexRange N).flatMap (isfbRow x0 L N a)

/-! ### Interpolation lemmas -/

/-- The zipped sample points of `point` are `sigPts` at start index 0. -/
theorem sigPts_eq_zip (sr : ℝ) (data : List ℝ) :
    (timeAxis data.length sr).zip data = sigPts sr 0 data := by
  suffices h : ∀ (data : List ℝ) (j : ℕ),
      ((List.range' j data.length).map (fun i => (i : ℝ) / sr)).zip data =
        sigPts sr j data by
    have h0 := h data 0
    rwa [timeAxis, List.range_eq_range'] at *
  intro data
  induction data with
  | nil => intro j; simp [sigPts]
  | cons d rest ih =>
      intro j
      rw [List.length_cons, List.range'_succ]
      simpa [sigPts] using ih (j + 1)

/-- Value of the two-point interpolation segment `[j/sr, (j+1)/sr]` in terms
of the rescaled query `t * sr`. -/
theorem seg_value {sr : ℝ} (hsr : sr ≠ 0) (t : ℝ) (j : ℕ) (d0 d1 : ℝ) :
    d0 + (d1 - d0) * (t - (j : ℝ) / sr) / ((((j + 1 : ℕ)) : ℝ) / sr - (j : ℝ) / sr) =
      d0 + (d1 - d0) * (t * sr - (j : ℝ)) := by
  push_cast
  rw [div_sub_div_same, show ((j : ℝ) + 1 - (j : ℝ)) = 1 by ring, one_div,
    div_eq_mul_inv, inv_inv]
  field_simp

/-- Queries strictly before the first sample time interpolate to zero. -/
theorem interp_sigPts_left {sr t : ℝ} (hsr : 0 < sr) (data : List ℝ) (j : ℕ)
    (h : t * sr < j) : interpSorted t (sigPts sr j data) = 0 := by
  have ht : t < (j : ℝ) / sr := (lt_div_iff₀ hsr).mpr h
  match data with
  | [] => simp [sigPts, interpSorted]
  | [d] =>
      simp only [sigPts, interpSorted]
      rw [if_neg (ne_of_lt ht)]
  | d0 :: d1 :: rest =>
      simp only [sigPts, interpSorted]
      rw [if_pos ht]

/-- Queries strictly after the last sample time interpolate to zero. -/
theorem interp_sigPts_right {sr t : ℝ} (hsr : 0 < sr) :
    ∀ (data : List ℝ) (j : ℕ), data ≠ [] →
      ((j : ℝ) + data.length - 1) < t * sr →
      interpSorted t (sigPts sr j data) = 0 := by
  intro data
  induction data with
  | nil => intro j h; exact absurd rfl h
  | cons d rest ih =>
      intro j _ h
      match rest, ih with
      | [], _ =>
          simp only [List.length_cons, List.length_nil] at h
          have hj : (j : ℝ) < t * sr := by push_cast at h; linarith
          have ht : (j : ℝ) / sr < t := (div_lt_iff₀ hsr).mpr (by linarith [hj])
          simp only [sigPts, interpSorted]
          rw [if_neg (ne_of_gt ht)]
      | d1 :: rest', ih =>
          have hlen : ((j : ℝ) + (d :: d1 :: rest').length - 1) =
              (j : ℝ) + rest'.length + 1 := by
            simp [List.length_cons]; ring
          rw [hlen] at h
          have h1 : ((j : ℝ) + 1) < t * sr := by
            have : (0 : ℝ) ≤ (rest'.length : ℝ) := by positivity
            linarith
          have hnotlt : ¬ t < (j : ℝ) / sr := by
            rw [not_lt, div_le_iff₀ hsr]
            linarith
          have hnotle : ¬ t ≤ ((j : ℝ) + 1) / sr := by
            rw [not_le, div_lt_iff₀ hsr]
            linarith
          simp only [sigPts, interpSorted]
          rw [if_neg hnotlt, if_neg (by push_cast at hnotle ⊢; exact hnotle)]
          have hrec := ih (j + 1) (by simp)
            (by simp only [List.length_cons]; push_cast; linarith)
          simpa [sigPts] using hrec

/-- In-range queries interpolate linearly on the segment of index `k`. -/
theorem interp_sigPts_seg {sr t : ℝ} (hsr : 0 < sr) :
    ∀ (data : List ℝ) (j k : ℕ), k + 1 < data.length →
      ((j : ℝ) + k) ≤ t * sr → t * sr ≤ ((j : ℝ) + k + 1) →
      interpSorted t (sigPts sr j data) =
        data.getD k 0 + (data.getD (k + 1) 0 - data.getD k 0) *
          (t * sr - ((j : ℝ) + k)) := by
  intro data
  induction data with
  | nil => intro j k hk; simp at hk
  | cons d0 rest ih =>
      intro j k hk hlo hhi
      match rest, ih with
      | [], _ => simp at hk
      | d1 :: rest', ih =>
          match k with
          | 0 =>
              have hnotlt : ¬ t < (j : ℝ) / sr := by
                rw [not_lt, div_le_iff₀ hsr]
                push_cast at hlo; linarith
              have hle : t ≤ ((j : ℝ) + 1) / sr := by
                rw [le_div_iff₀ hsr]
                push_cast at hhi; linarith
              simp only [sigPts, interpSorted]
              rw [if_neg hnotlt, if_pos (by push_cast; exact hle),
                seg_value (ne_of_gt hsr)]
              simp only [List.getD_cons_zero, List.getD_cons_succ]
              push_cast
              ring
          | k' + 1 =>
              by_cases hmid : t ≤ ((j : ℝ) + 1) / sr
              · -- forces t * sr = j + 1 and k' = 0
                have hmid' : t * sr ≤ (j : ℝ) + 1 := (le_div_iff₀ hsr).mp hmid
                have hk'0 : k' = 0 := by
                  by_contra hne
                  have : 1 ≤ (k' : ℝ) := by
                    have : 1 ≤ k' := Nat.one_le_iff_ne_zero.mpr hne
                    exact_mod_cast this
                  push_cast at hlo
                  linarith
                subst hk'0
                have hu : t * sr = (j : ℝ) + 1 := by push_cast at hlo; linarith
                have hnotlt : ¬ t < (j : ℝ) / sr := by
                  rw [not_lt, div_le_iff₀ hsr]; linarith
                simp only [sigPts, interpSorted]
                rw [if_neg hnotlt, if_pos (by push_cast; exact hmid),
                  seg_value (ne_of_gt hsr), hu]
                simp only [List.getD_cons_zero, List.getD_cons_succ]
                push_cast
                ring
              · have hnotlt : ¬ t < (j : ℝ) / sr := by
                  rw [not_lt, div_le_iff₀ hsr]
                  push_cast at hlo
                  have : (0 : ℝ) ≤ (k' : ℝ) + 1 := by positivity
                  linarith
                simp only [sigPts, interpSorted]
                rw [if_neg hnotlt, if_neg (by push_cast at hmid ⊢; exact hmid)]
                have hrec := ih (j + 1) k' (by simpa using Nat.lt_of_succ_lt_succ hk)
                  (by push_cast; push_cast at hlo; linarith)
                  (by push_cast; push_cast at hhi; linarith)
                rw [show sigPts sr (j + 1) (d1 :: rest') =
                    ((((j + 1 : ℕ)) : ℝ) / sr, d1) :: sigPts sr (j + 2) rest'
                  from rfl] at hrec
                simp only [List.getD_cons_succ]
                rw [hrec]
                simp only [List.getD_cons_succ]
                push_cast
                ring

/-- The interpolation performed by the source (`np.interp` over the time axis
`np.arange(N)/samplerate` with zero fill) coincides with the interpolation
rule worded in the spec, for a positive sample rate and a nonempty signal. -/
theorem interp_eq_spec {sr : ℝ} (hsr : 0 < sr) (t : ℝ) (data : List ℝ)
    (hne : data ≠ []) :
    interpSorted t ((timeAxis data.length sr).zip data) =
      spec_interp data sr t := by
  rw [sigPts_eq_zip, spec_interp]
  by_cases hout : t < 0 ∨ ((data.length : ℝ) - 1) / sr < t
  · rw [if_pos hout]
    rcases hout with h1 | h2
    · exact interp_sigPts_left hsr data 0 (by
        have := mul_neg_of_neg_of_pos h1 hsr
        push_cast
        linarith)
    · exact interp_sigPts_right hsr data 0 hne (by
        have := (div_lt_iff₀ hsr).mp h2
        push_cast
        linarith)
  · rw [if_neg hout]
    push_neg at hout
    obtain ⟨ht0, htN⟩ := hout
    have hu0 : (0 : ℝ) ≤ t * sr := mul_nonneg ht0 (le_of_lt hsr)
    have huN : t * sr ≤ (data.length : ℝ) - 1 := (le_div_iff₀ hsr).mp htN
    match data, hne with
    | [d], _ =>
        have hu : t * sr = 0 := by simp at huN; linarith
        have ht : t = 0 := by
          rcases mul_eq_zero.mp hu with h | h
          · exact h
          · exact absurd h (ne_of_gt hsr)
        simp [sigPts, interpSorted, specSegVal, specIdx, ht, hu,
          Int.floor_zero]
    | d0 :: d1 :: rest, _ =>
        have hlen2 : 2 ≤ (d0 :: d1 :: rest).length := by simp
        have hfl0 : 0 ≤ ⌊t * sr⌋ := Int.floor_nonneg.mpr hu0
        have hcast : ((Int.toNat ⌊t * sr⌋ : ℕ) : ℝ) = (⌊t * sr⌋ : ℝ) := by
          exact_mod_cast congrArg Int.cast (Int.toNat_of_nonneg hfl0)
        have hk1 : specIdx (d0 :: d1 :: rest) (t * sr) + 1 <
            (d0 :: d1 :: rest).length := by
          simp only [specIdx, List.length_cons]
          omega
        have hklo : ((specIdx (d0 :: d1 :: rest) (t * sr) : ℕ) : ℝ) ≤ t * sr := by
          rw [specIdx]
          rcases le_total (Int.toNat ⌊t * sr⌋) ((d0 :: d1 :: rest).length - 2) with
            hc | hc
          · rw [min_eq_left hc, hcast]
            exact Int.floor_le (t * sr)
          · rw [min_eq_right hc]
            have : ((d0 :: d1 :: rest).length - 2 : ℕ) ≤ (Int.toNat ⌊t * sr⌋ : ℕ) :=
              hc
            have h2 : (((d0 :: d1 :: rest).length - 2 : ℕ) : ℝ) ≤
                ((Int.toNat ⌊t * sr⌋ : ℕ) : ℝ) := by exact_mod_cast this
            rw [hcast] at h2
            calc (((d0 :: d1 :: rest).length - 2 : ℕ) : ℝ) ≤ (⌊t * sr⌋ : ℝ) := h2
              _ ≤ t * sr := Int.floor_le (t * sr)
        have hkhi : t * sr ≤ ((specIdx (d0 :: d1 :: rest) (t * sr) : ℕ) : ℝ) + 1 := by
          rw [specIdx]
          rcases le_total (Int.toNat ⌊t * sr⌋) ((d0 :: d1 :: rest).length - 2) with
            hc | hc
          · rw [min_eq_left hc, hcast]
            exact le_of_lt (Int.lt_floor_add_one (t * sr))
          · rw [min_eq_right hc]
            have hlen : (((d0 :: d1 :: rest).length - 2 : ℕ) : ℝ) =
                ((d0 :: d1 :: rest).length : ℝ) - 2 := by
              simp only [List.length_cons]
              push_cast
              ring
            rw [hlen]
            linarith
        have hseg := @interp_sigPts_seg sr t hsr (d0 :: d1 :: rest) 0
          (specIdx (d0 :: d1 :: rest) (t * sr)) hk1
          (by push_cast; linarith)
          (by push_cast; linarith)
        rw [hseg, specSegVal]
        push_cast
        ring

/-! ### Field and point lemmas -/

/-- With a nonempty signal, `point` returns the mapped field. -/
theorem point_eq_some {signal : DelayedSignal} (hne : signal.data ≠ [])
    (xs : Vec3) (observation_time : ℝ) (grid : List Vec3) (copt : Option ℝ) :
    point xs signal observation_time grid copt =
      some (pointField xs signal observation_time grid (copt.getD defs_c)) := by
  rw [point, if_neg]
  simpa [List.isEmpty_iff] using hne

/-- With an empty signal, `point` is the `np.interp` error. -/
theorem point_eq_none {signal : DelayedSignal} (he : signal.data = [])
    (xs : Vec3) (observation_time : ℝ) (grid : List Vec3) (copt : Option ℝ) :
    point xs signal observation_time grid copt = none := by
  rw [point, if_pos]
  simp [List.isEmpty_iff, he]

/-- The per-point value of `point`, rewritten through the spec-side
interpolation rule. -/
theorem pointValue_eq_spec {signal : DelayedSignal}
    (hsr : 0 < signal.samplerate) (hne : signal.data ≠ [])
    (xs : Vec3) (observation_time : ℝ) (c : ℝ) (g : Vec3) :
    pointValue xs signal observation_time c g =
      1 / (4 * Real.pi * dist3 g xs) *
        spec_interp signal.data signal.samplerate
          ((observation_time - signal.signal_offset) - dist3 g xs / c) := by
  simp only [pointValue]
  rw [interp_eq_spec hsr _ _ hne]

theorem pointField_length (xs : Vec3) (signal : DelayedSignal)
    (observation_time : ℝ) (grid : List Vec3) (c : ℝ) :
    (pointField xs signal observation_time grid c).length = grid.length := by
  simp [pointField]

theorem zeroField_length (grid : List Vec3) :
    (zeroField grid).length = grid.length := by
  simp [zeroField]

theorem fieldAdd_length (p f : List ℝ) :
    (fieldAdd p f).length = min p.length f.length := by
  simp [fieldAdd]

theorem fieldScale_length (s : ℝ) (f : List ℝ) :
    (fieldScale s f).length = f.length := by
  simp [fieldScale]

/-- Adding a mapped field to the zero field gives the mapped field back. -/
theorem fieldAdd_zeroField (grid : List Vec3) (h : Vec3 → ℝ) :
    fieldAdd (zeroField grid) (grid.map h) = grid.map h := by
  rw [fieldAdd, zeroField, List.zipWith_map, List.zipWith_same]
  simp

theorem fieldScale_one (f : List ℝ) : fieldScale 1 f = f := by
  simp [fieldScale]

/-- Adding a zero-scaled field of at least matching length is the identity. -/
theorem fieldAdd_fieldScale_zero :
    ∀ (p f : List ℝ), p.length ≤ f.length → fieldAdd p (fieldScale 0 f) = p := by
  intro p
  induction p with
  | nil => intro f _; simp [fieldAdd]
  | cons a p ih =>
      intro f hf
      match f with
      | [] => simp at hf
      | b :: f =>
          simp only [fieldScale, List.map_cons, fieldAdd, List.zipWith_cons_cons,
            zero_mul, add_zero, List.length_cons] at *
          exact congrArg (List.cons a) (ih f (by omega))

/-! ### Strength lemmas -/

/-- The elementwise-power row product of the source equals the indexed
product over the six walls. -/
theorem sourceStrength_eq_prod (coeffs : Fin 6 → ℝ) (o : Fin 6 → ℕ) :
    sourceStrength coeffs o = ∏ i : Fin 6, coeffs i ^ o i :=
  (Fin.prod_univ_def _).symm

theorem sourceStrength_ones (o : Fin 6 → ℕ) :
    sourceStrength (fun _ => 1) o = 1 := by
  simp [sourceStrength_eq_prod]

theorem sourceStrength_zeroOrder (coeffs : Fin 6 → ℝ) :
    sourceStrength coeffs (fun _ => 0) = 1 := by
  simp [sourceStrength_eq_prod]

/-- A zero coefficient at a wall that the image actually reflects off makes
the whole strength zero. -/
theorem sourceStrength_eq_zero {coeffs : Fin 6 → ℝ} {o : Fin 6 → ℕ} (w : Fin 6)
    (hw : o w ≠ 0) (hc : coeffs w = 0) : sourceStrength coeffs o = 0 := by
  rw [sourceStrength_eq_prod]
  exact Finset.prod_eq_zero (Finset.mem_univ w) (by rw [hc, zero_pow hw])

/-- The strength does not depend on the coefficient of a wall whose
reflection count is zero. -/
theorem sourceStrength_update (coeffs : Fin 6 → ℝ) (o : Fin 6 → ℕ) (w : Fin 6)
    (v : ℝ) (hw : o w = 0) :
    sourceStrength (Function.update coeffs w v) o = sourceStrength coeffs o := by
  rw [sourceStrength_eq_prod, sourceStrength_eq_prod]
  refine Finset.prod_congr rfl (fun i _ => ?_)
  by_cases hiw : i = w
  · subst hiw
    rw [hw, pow_zero, pow_zero]
  · rw [Function.update_noteq hiw]

/-! ### Superposition loop lemmas -/

theorem imageLoop_append (signal : DelayedSignal) (observation_time : ℝ)
    (grid : List Vec3) (copt : Option ℝ) :
    ∀ (l₁ l₂ : List (Vec3 × ℝ)) (p : List ℝ),
      imageLoop signal observation_time grid copt (l₁ ++ l₂) p =
        match imageLoop signal observation_time grid copt l₁ p with
        | none => none
        | some q => imageLoop signal observation_time grid copt l₂ q := by
  intro l₁
  induction l₁ with
  | nil => intro l₂ p; rfl
  | cons im rest ih =>
      intro l₂ p
      by_cases hs : im.2 ≠ 0
      · simp only [List.cons_append, imageLoop, if_pos hs]
        match point im.1 signal observation_time grid copt with
        | none => rfl
        | some f => exact ih l₂ (fieldAdd p (fieldScale im.2 f))
      · simp only [List.cons_append, imageLoop, if_neg hs]
        exact ih l₂ p

/-- Images of zero strength are all skipped. -/
theorem imageLoop_skips (signal : DelayedSignal) (observation_time : ℝ)
    (grid : List Vec3) (copt : Option ℝ) :
    ∀ (l : List (Vec3 × ℝ)) (p : List ℝ), (∀ im ∈ l, im.2 = 0) →
      imageLoop signal observation_time grid copt l p = some p := by
  intro l
  induction l with
  | nil => intro p _; rfl
  | cons im rest ih =>
      intro p h
      have h0 : im.2 = 0 := h im (List.mem_cons_self im rest)
      simp only [imageLoop]
      rw [if_neg (show ¬ im.2 ≠ 0 by simp [h0])]
      exact ih p (fun im' hm => h im' (List.mem_cons_of_mem im hm))

/-- With an empty signal, the loop aborts as soon as any image has nonzero
strength. -/
theorem imageLoop_none {signal : DelayedSignal} (he : signal.data = [])
    (observation_time : ℝ) (grid : List Vec3) (copt : Option ℝ) :
    ∀ (l : List (Vec3 × ℝ)) (p : List ℝ), (∃ im ∈ l, im.2 ≠ 0) →
      imageLoop signal observation_time grid copt l p = none := by
  intro l
  induction l with
  | nil => intro p h; simp at h
  | cons im rest ih =>
      intro p h
      by_cases hs : im.2 ≠ 0
      · simp only [imageLoop, if_pos hs,
          point_eq_none he im.1 observation_time grid copt]
      · obtain ⟨im', hm', hs'⟩ := h
        rcases List.mem_cons.mp hm' with rfl | hm'
        · exact absurd hs' hs
        · simp only [imageLoop, if_neg hs]
          exact ih p ⟨im', hm', hs'⟩

/-- With an empty signal, the no-skip superposition aborts on any image. -/
theorem weightedSumAll_none {signal : DelayedSignal} (he : signal.data = [])
    (observation_time : ℝ) (grid : List Vec3) (copt : Option ℝ)
    (l : List (Vec3 × ℝ)) (hl : l ≠ []) (p : List ℝ) :
    weightedSumAll signal observation_time grid copt l p = none := by
  match l with
  | [] => exact absurd rfl hl
  | im :: rest =>
      simp only [weightedSumAll,
        point_eq_none he im.1 observation_time grid copt]

/-! ### Enumeration lemmas -/

/-- The index range splits into its negative half, zero, and positive half. -/
theorem indexRange_eq (N : ℕ) :
    indexRange N = negIdx N ++ (0 : ℤ) :: posIdx N := by
  rw [indexRange, negIdx, posIdx, show 2 * N + 1 = N + (N + 1) by ring,
    List.range_add, List.map_append]
  congr 1
  rw [List.range_succ_eq_map]
  simp only [List.map_cons, List.map_map]
  congr 1
  · push_cast
    ring
  · refine List.map_congr_left (fun i _ => ?_)
    simp only [Function.comp_apply]
    push_cast
    ring

theorem negIdx_ne_zero {N : ℕ} {a : ℤ} (h : a ∈ negIdx N) : a ≠ 0 := by
  simp only [negIdx, List.mem_map, List.mem_range] at h
  obtain ⟨i, hi, rfl⟩ := h
  omega

theorem posIdx_ne_zero {N : ℕ} {a : ℤ} (h : a ∈ posIdx N) : a ≠ 0 := by
  simp only [posIdx, List.mem_map, List.mem_range] at h
  obtain ⟨i, hi, rfl⟩ := h
  omega

/-- A nonzero 1-D index reflects off at least one of its two walls. -/
theorem wallCount_ne_zero {a : ℤ} (ha : a ≠ 0) :
    wallCountLow a ≠ 0 ∨ wallCountHigh a ≠ 0 := by
  rw [wallCountLow, wallCountHigh]
  split_ifs with h
  · right
    omega
  · left
    omega

theorem wallOrder_ne_zero {a b c : ℤ} (h : a ≠ 0 ∨ b ≠ 0 ∨ c ≠ 0) :
    ∃ i, wallOrder a b c i ≠ 0 := by
  rcases h with ha | hb | hc
  · rcases wallCount_ne_zero ha with h' | h'
    · exact ⟨0, h'⟩
    · exact ⟨1, h'⟩
  · rcases wallCount_ne_zero hb with h' | h'
    · exact ⟨2, h'⟩
    · exact ⟨3, h'⟩
  · rcases wallCount_ne_zero hc with h' | h'
    · exact ⟨4, h'⟩
    · exact ⟨5, h'⟩

theorem imagePos1d_zero (x L : ℝ) : imagePos1d x L 0 = x := by
  simp [imagePos1d]

theorem wallOrder_zero : wallOrder 0 0 0 = fun _ => 0 := by
  funext i
  fin_cases i <;> rfl

/-- The enumeration is the flat triple loop over the index cube. -/
theorem isfb_eq_flat (x0 L : Vec3) (N : ℕ) :
    image_sources_for_box x0 L N = (indexRange N).flatMap (isfbPlane x0 L N) :=
  rfl

/-- The center slot is the real source with all reflection counts zero. -/
theorem isfbCell_zero (x0 L : Vec3) (N : ℕ) :
    isfbCell x0 L N 0 0 0 = some (x0, fun _ => 0) := by
  rw [isfbCell, if_pos (by simp)]
  rw [imagePos1d_zero, imagePos1d_zero, imagePos1d_zero, wallOrder_zero]

/-- Every image produced by a cell row carries a wall order with the given
first two indices. -/
theorem mem_filterMap_cell {x0 L : Vec3} {N : ℕ} {a b : ℤ} {l : List ℤ}
    {im : Vec3 × (Fin 6 → ℕ)} (h : im ∈ l.filterMap (isfbCell x0 L N a b)) :
    ∃ c ∈ l, im.2 = wallOrder a b c := by
  obtain ⟨c, hcl, hc⟩ := List.mem_filterMap.mp h
  rw [isfbCell] at hc
  split_ifs at hc with hcond
  refine ⟨c, hcl, ?_⟩
  rw [← Option.some_inj.mp hc]

theorem mem_isfbRow_order {x0 L : Vec3} {N : ℕ} {a b : ℤ}
    {im : Vec3 × (Fin 6 → ℕ)} (h : im ∈ isfbRow x0 L N a b) :
    ∃ c, im.2 = wallOrder a b c := by
  obtain ⟨c, _, hc⟩ := mem_filterMap_cell (by rwa [isfbRow] at h)
  exact ⟨c, hc⟩

theorem mem_isfbPlane_order {x0 L : Vec3} {N : ℕ} {a : ℤ}
    {im : Vec3 × (Fin 6 → ℕ)} (h : im ∈ isfbPlane x0 L N a) :
    ∃ b c, im.2 = wallOrder a b c := by
  rw [isfbPlane] at h
  obtain ⟨b, _, hb⟩ := List.mem_flatMap.mp h
  obtain ⟨c, hc⟩ := mem_isfbRow_order hb
  exact ⟨b, c, hc⟩

/-- The enumeration splits as some images before the real source, the real
source itself (zero reflection order), and some images after it; every other
image in the list reflects off at least one wall. -/
theorem isfb_decomp (x0 L : Vec3) (N : ℕ) :
    ∃ P₁ P₂ : List (Vec3 × (Fin 6 → ℕ)),
      image_sources_for_box x0 L N = P₁ ++ (x0, fun _ => 0) :: P₂ ∧
      (∀ im ∈ P₁, ∃ i, im.2 i ≠ 0) ∧
      (∀ im ∈ P₂, ∃ i, im.2 i ≠ 0) := by
  refine ⟨(negIdx N).flatMap (isfbPlane x0 L N) ++
      ((negIdx N).flatMap (isfbRow x0 L N 0) ++
        (negIdx N).filterMap (isfbCell x0 L N 0 0)),
    (posIdx N).filterMap (isfbCell x0 L N 0 0) ++
      ((posIdx N).flatMap (isfbRow x0 L N 0) ++
        (posIdx N).flatMap (isfbPlane x0 L N)), ?_, ?_, ?_⟩
  · rw [isfb_eq_flat, indexRange_eq, List.flatMap_append, List.flatMap_cons,
      isfbPlane, indexRange_eq, List.flatMap_append, List.flatMap_cons,
      isfbRow, indexRange_eq, List.filterMap_append, List.filterMap_cons,
      isfbCell_zero]
    simp only [List.append_assoc, List.cons_append]
  · intro im hm
    rcases List.mem_append.mp hm with hm | hm
    · obtain ⟨a, ha, hpl⟩ := List.mem_flatMap.mp hm
      obtain ⟨b, c, horder⟩ := mem_isfbPlane_order hpl
      rw [horder]
      exact wallOrder_ne_zero (Or.inl (negIdx_ne_zero ha))
    · rcases List.mem_append.mp hm with hm | hm
      · obtain ⟨b, hb, hrow⟩ := List.mem_flatMap.mp hm
        obtain ⟨c, horder⟩ := mem_isfbRow_order hrow
        rw [horder]
        exact wallOrder_ne_zero (Or.inr (Or.inl (negIdx_ne_zero hb)))
      · obtain ⟨c, hc, horder⟩ := mem_filterMap_cell hm
        rw [horder]
        exact wallOrder_ne_zero (Or.inr (Or.inr (negIdx_ne_zero hc)))
  · intro im hm
    rcases List.mem_append.mp hm with hm | hm
    · obtain ⟨c, hc, horder⟩ := mem_filterMap_cell hm
      rw [horder]
      exact wallOrder_ne_zero (Or.inr (Or.inr (posIdx_ne_zero hc)))
    · rcases List.mem_append.mp hm with hm | hm
      · obtain ⟨b, hb, hrow⟩ := List.mem_flatMap.mp hm
        obtain ⟨c, horder⟩ := mem_isfbRow_order hrow
        rw [horder]
        exact wallOrder_ne_zero (Or.inr (Or.inl (posIdx_ne_zero hb)))
      · obtain ⟨a, ha, hpl⟩ := List.mem_flatMap.mp hm
        obtain ⟨b, c, horder⟩ := mem_isfbPlane_order hpl
        rw [horder]
        exact wallOrder_ne_zero (Or.inl (posIdx_ne_zero ha))

/-- The real source belongs to every enumeration. -/
theorem center_mem_isfb (x0 L : Vec3) (N : ℕ) :
    ((x0, fun _ => 0) : Vec3 × (Fin 6 → ℕ)) ∈ image_sources_for_box x0 L N := by
  obtain ⟨P₁, P₂, heq, -, -⟩ := isfb_decomp x0 L N
  rw [heq]
  exact List.mem_append.mpr (Or.inr (List.mem_cons_self _ _))

/-- `point_image_sources` is the loop over the enumeration tagged with the
computed strengths. -/
theorem pis_eq_loop (x0 : Vec3) (signal : DelayedSignal) (observation_time : ℝ)
    (grid : List Vec3) (L : Vec3) (max_order : ℕ)
    (coeffsopt : Option (Fin 6 → ℝ)) (copt : Option ℝ) :
    point_image_sources x0 signal observation_time grid L max_order
        coeffsopt copt =
      imageLoop signal observation_time grid copt
        ((image_sources_for_box x0 L max_order).map
          (fun im => (im.1, sourceStrength (coeffsopt.getD (fun _ => 1)) im.2)))
        (zeroField grid) := by
  simp only [point_image_sources]
  rw [List.zip_map']

/-- Any field produced by the superposition loop has the length of its
accumulator, which is preserved at the grid length. -/
theorem imageLoop_length (signal : DelayedSignal) (observation_time : ℝ)
    (grid : List Vec3) (copt : Option ℝ) :
    ∀ (l : List (Vec3 × ℝ)) (p F : List ℝ), p.length = grid.length →
      imageLoop signal observation_time grid copt l p = some F →
      F.length = grid.length := by
  intro l
  induction l with
  | nil =>
      intro p F hp hF
      simp only [imageLoop, Option.some_inj] at hF
      rw [← hF]
      exact hp
  | cons im rest ih =>
      intro p F hp hF
      by_cases hs : im.2 ≠ 0
      · simp only [imageLoop, if_pos hs] at hF
        by_cases he : signal.data = []
        · rw [point_eq_none he] at hF
          exact absurd hF (by simp)
        · rw [point_eq_some he] at hF
          refine ih _ F ?_ hF
          rw [fieldAdd_length, fieldScale_length, pointField_length, hp]
          exact min_self _
      · simp only [imageLoop, if_neg hs] at hF
        exact ih p F hp hF

/-- The enumeration for `max_order = 0` is exactly the real source. -/
theorem isfb_zero (x0 L : Vec3) :
    image_sources_for_box x0 L 0 = [((x0, fun _ => 0) : Vec3 × (Fin 6 → ℕ))] := by
  have h0 : indexRange 0 = [0] := by decide
  rw [isfb_eq_flat, h0]
  simp only [List.flatMap_cons, List.flatMap_nil, List.append_nil]
  rw [isfbPlane, h0]
  simp only [List.flatMap_cons, List.flatMap_nil, List.append_nil]
  rw [isfbRow, h0]
  simp [List.filterMap_cons, isfbCell_zero]

/-- Evaluation of the loop on the singleton real-source image list. -/
theorem imageLoop_center (x0 : Vec3) (signal : DelayedSignal)
    (observation_time : ℝ) (grid : List Vec3) (copt : Option ℝ) :
    imageLoop signal observation_time grid copt [(x0, (1 : ℝ))]
        (zeroField grid) =
      point x0 signal observation_time grid copt := by
  simp only [imageLoop]
  rw [if_pos (by norm_num)]
  by_cases he : signal.data = []
  · rw [point_eq_none he]
  · rw [point_eq_some he]
    simp only [imageLoop, Option.some_inj]
    rw [fieldScale_one, pointField, fieldAdd_zeroField, ← pointField]

/-- `point_image_sources` with `max_order = 0` collapses to `point` at the
real source, for any reflection coefficients. -/
theorem pis_order_zero (x0 : Vec3) (signal : DelayedSignal)
    (observation_time : ℝ) (grid : List Vec3) (L : Vec3)
    (coeffsopt : Option (Fin 6 → ℝ)) (copt : Option ℝ) :
    point_image_sources x0 signal observation_time grid L 0 coeffsopt copt =
      point x0 signal observation_time grid copt := by
  rw [pis_eq_loop, isfb_zero]
  simp only [List.map_cons, List.map_nil, sourceStrength_zeroOrder]
  exact imageLoop_center x0 signal observation_time grid copt

/-- With all six reflection coefficients zero, only the real source (whose
strength is `0^0 * ... * 0^0 = 1`) survives in the superposition. -/
theorem pis_all_zero_coeffs (x0 : Vec3) (signal : DelayedSignal)
    (observation_time : ℝ) (grid : List Vec3) (L : Vec3) (N : ℕ)
    (copt : Option ℝ) :
    point_image_sources x0 signal observation_time grid L N
        (some (fun _ => 0)) copt =
      point x0 signal observation_time grid copt := by
  rw [pis_eq_loop]
  simp only [Option.getD_some]
  obtain ⟨P₁, P₂, heq, h₁, h₂⟩ := isfb_decomp x0 L N
  rw [heq, List.map_append, List.map_cons, imageLoop_append]
  have hzero : ∀ (P : List (Vec3 × (Fin 6 → ℕ))),
      (∀ im ∈ P, ∃ i, im.2 i ≠ 0) →
      ∀ im' ∈ P.map (fun im =>
        (im.1, sourceStrength (fun _ => (0 : ℝ)) im.2)), im'.2 = 0 := by
    intro P hP im' hm'
    obtain ⟨im, hm, rfl⟩ := List.mem_map.mp hm'
    obtain ⟨i, hi⟩ := hP im hm
    exact @sourceStrength_eq_zero (fun _ => (0 : ℝ)) im.2 i hi rfl
  rw [imageLoop_skips signal observation_time grid copt _ _ (hzero P₁ h₁)]
  simp only [imageLoop, sourceStrength_zeroOrder]
  rw [if_pos (by norm_num)]
  by_cases he : signal.data = []
  · rw [point_eq_none he]
  · rw [point_eq_some he]
    have hfix : fieldAdd (zeroField grid)
        (fieldScale 1 (pointField x0 signal observation_time grid
          (copt.getD defs_c))) =
        pointField x0 signal observation_time grid (copt.getD defs_c) := by
      rw [fieldScale_one, pointField, fieldAdd_zeroField, ← pointField]
    show imageLoop signal observation_time grid copt
        (P₂.map (fun im => (im.1, sourceStrength (fun _ => (0 : ℝ)) im.2)))
        (fieldAdd (zeroField grid)
          (fieldScale 1 (pointField x0 signal observation_time grid
            (copt.getD defs_c)))) =
      some (pointField x0 signal observation_time grid (copt.getD defs_c))
    rw [hfix]
    exact imageLoop_skips signal observation_time grid copt _ _ (hzero P₂ h₂)

/-- Distance evaluation at a concrete unit offset, used by the witnesses. -/
theorem dist3_unit : dist3 (Vec3.mk 1 0 0) (Vec3.mk 0 0 0) = 1 := by
  rw [dist3]
  norm_num

/-- With all-ones coefficients the strength-tagged loop is the plain
unweighted sum of `point` over the image positions. -/
theorem imageLoop_ones (signal : DelayedSignal) (observation_time : ℝ)
    (grid : List Vec3) (copt : Option ℝ) :
    ∀ (ps : List (Vec3 × (Fin 6 → ℕ))) (p : List ℝ),
      imageLoop signal observation_time grid copt
        (ps.map (fun im => (im.1, sourceStrength (fun _ => 1) im.2))) p =
      unweightedPointSum signal observation_time grid copt
        (ps.map Prod.fst) p := by
  intro ps
  induction ps with
  | nil => intro p; rfl
  | cons im rest ih =>
      intro p
      rw [List.map_cons, List.map_cons]
      simp only [imageLoop, unweightedPointSum, sourceStrength_ones im.2]
      rw [if_pos (one_ne_zero)]
      cases hp : point im.1 signal observation_time grid copt with
      | none => rfl
      | some f =>
          show imageLoop signal observation_time grid copt
              (rest.map (fun im => (im.1, sourceStrength (fun _ => 1) im.2)))
              (fieldAdd p (fieldScale 1 f)) =
            unweightedPointSum signal observation_time grid copt
              (rest.map Prod.fst) (fieldAdd p f)
          rw [fieldScale_one]
          exact ih _

/-- With a nonempty signal, skipping zero-strength images leaves the
superposition unchanged. -/
theorem imageLoop_eq_weightedSumAll {signal : DelayedSignal}
    (hne : signal.data ≠ []) (observation_time : ℝ) (grid : List Vec3)
    (copt : Option ℝ) :
    ∀ (l : List (Vec3 × ℝ)) (p : List ℝ), p.length = grid.length →
      imageLoop signal observation_time grid copt l p =
        weightedSumAll signal observation_time grid copt l p := by
  intro l
  induction l with
  | nil => intro p _; rfl
  | cons im rest ih =>
      intro p hp
      by_cases hs : im.2 ≠ 0
      · simp only [imageLoop, weightedSumAll, if_pos hs, point_eq_some hne]
        show imageLoop signal observation_time grid copt rest
            (fieldAdd p (fieldScale im.2 (pointField im.1 signal
              observation_time grid (copt.getD defs_c)))) =
          weightedSumAll signal observation_time grid copt rest
            (fieldAdd p (fieldScale im.2 (pointField im.1 signal
              observation_time grid (copt.getD defs_c))))
        refine ih _ ?_
        rw [fieldAdd_length, fieldScale_length, pointField_length, hp]
        exact min_self _
      · rw [not_not] at hs
        simp only [imageLoop, weightedSumAll,
          if_neg (show ¬ im.2 ≠ 0 by simp [hs]), point_eq_some hne]
        show imageLoop signal observation_time grid copt rest p =
          weightedSumAll signal observation_time grid copt rest
            (fieldAdd p (fieldScale im.2 (pointField im.1 signal
              observation_time grid (copt.getD defs_c))))
        rw [hs, fieldAdd_fieldScale_zero p _ (by rw [pointField_length, hp])]
        exact ih _ hp

/-! ### Claim theorems -/

/-- C1: for every valid input (positive sample rate, nonempty 1-D signal),
the field returned by `point` at each grid point equals `1/(4 pi r)` times
the excitation signal linearly interpolated at the retarded time
`(observation_time - causal_offset) - r/c`, where `r` is the Euclidean
distance from the source position to the grid point and the signal's time
axis is sample index over sample rate. -/
theorem C1_green_interp (xs : Vec3) (signal : DelayedSignal)
    (observation_time : ℝ) (grid : List Vec3) (copt : Option ℝ)
    (hsr : 0 < signal.samplerate) (hne : signal.data ≠ []) :
    point xs signal observation_time grid copt =
      some (grid.map (fun g =>
        1 / (4 * Real.pi * dist3 g xs) *
          spec_interp signal.data signal.samplerate
            ((observation_time - signal.signal_offset) -
              dist3 g xs / copt.getD defs_c))) := by
  rw [point_eq_some hne, pointField]
  congr 1
  refine List.map_congr_left (fun g _ => ?_)
  exact pointValue_eq_spec hsr hne xs observation_time (copt.getD defs_c) g

/-- Witness for C1 at a concrete input. -/
theorem C1_green_interp_witness :
    (0 : ℝ) < (DelayedSignal.mk [(1 : ℝ)] 1 0).samplerate ∧
    (DelayedSignal.mk [(1 : ℝ)] 1 0).data ≠ [] ∧
    point ⟨0, 0, 0⟩ ⟨[(1 : ℝ)], 1, 0⟩ 0 [⟨1, 0, 0⟩] (some 1) =
      some ([(⟨1, 0, 0⟩ : Vec3)].map (fun g =>
        1 / (4 * Real.pi * dist3 g ⟨0, 0, 0⟩) *
          spec_interp [(1 : ℝ)] 1
            (((0 : ℝ) - 0) - dist3 g ⟨0, 0, 0⟩ / (some (1 : ℝ)).getD defs_c))) :=
  ⟨one_pos, by simp,
    C1_green_interp ⟨0, 0, 0⟩ ⟨[1], 1, 0⟩ 0 [⟨1, 0, 0⟩] (some 1) one_pos
      (by simp)⟩

/-- C2: the value of the field of `point` at a grid point is exactly zero
whenever the retarded time lies strictly before the signal's first sample
time or strictly after its last sample time. -/
theorem C2_causal_silence (xs : Vec3) (signal : DelayedSignal)
    (observation_time : ℝ) (grid : List Vec3) (copt : Option ℝ) (g : Vec3)
    (hsr : 0 < signal.samplerate) (hne : signal.data ≠ [])
    (hout : observation_time - signal.signal_offset -
        dist3 g xs / copt.getD defs_c < 0 ∨
      ((signal.data.length : ℝ) - 1) / signal.samplerate <
        observation_time - signal.signal_offset -
          dist3 g xs / copt.getD defs_c) :
    point xs signal observation_time grid copt =
      some (pointField xs signal observation_time grid (copt.getD defs_c)) ∧
    pointValue xs signal observation_time (copt.getD defs_c) g = 0 := by
  refine ⟨point_eq_some hne xs observation_time grid copt, ?_⟩
  rw [pointValue_eq_spec hsr hne, spec_interp, if_pos hout]
  exact mul_zero _

/-- Witness for C2 at a concrete input. -/
theorem C2_causal_silence_witness :
    (0 : ℝ) < (DelayedSignal.mk [(1 : ℝ)] 1 0).samplerate ∧
    (DelayedSignal.mk [(1 : ℝ)] 1 0).data ≠ [] ∧
    ((0 : ℝ) - 0 - dist3 ⟨1, 0, 0⟩ ⟨0, 0, 0⟩ / (some (1 : ℝ)).getD defs_c < 0) ∧
    (point ⟨0, 0, 0⟩ ⟨[(1 : ℝ)], 1, 0⟩ 0 [⟨1, 0, 0⟩] (some 1) =
      some (pointField ⟨0, 0, 0⟩ ⟨[(1 : ℝ)], 1, 0⟩ 0 [⟨1, 0, 0⟩]
        ((some (1 : ℝ)).getD defs_c)) ∧
     pointValue ⟨0, 0, 0⟩ ⟨[(1 : ℝ)], 1, 0⟩ 0 ((some (1 : ℝ)).getD defs_c)
        ⟨1, 0, 0⟩ = 0) := by
  have hd : (0 : ℝ) - 0 - dist3 ⟨1, 0, 0⟩ ⟨0, 0, 0⟩ /
      (some (1 : ℝ)).getD defs_c < 0 := by
    rw [dist3_unit]
    norm_num [Option.getD_some]
  exact ⟨one_pos, by simp, hd,
    C2_causal_silence ⟨0, 0, 0⟩ ⟨[1], 1, 0⟩ 0 [⟨1, 0, 0⟩] (some 1) ⟨1, 0, 0⟩
      one_pos (by simp) (Or.inl hd)⟩

/-- C3: `point_image_sources` with `max_order = 0` returns the same field as
`point` on the real source position, for every source, signal, time, grid,
room, reflection coefficients and speed of sound. -/
theorem C3_degenerate_room (x0 : Vec3) (signal : DelayedSignal)
    (observation_time : ℝ) (grid : List Vec3) (L : Vec3)
    (coeffsopt : Option (Fin 6 → ℝ)) (copt : Option ℝ) :
    point_image_sources x0 signal observation_time grid L 0 coeffsopt copt =
      point x0 signal observation_time grid copt :=
  pis_order_zero x0 signal observation_time grid L coeffsopt copt

/-- C4: with omitted coefficients (defaulting to six ones) the field of
`point_image_sources` is the plain unweighted sum of `point` over every
enumerated image position. -/
theorem C4_lossless_superposition (x0 : Vec3) (signal : DelayedSignal)
    (observation_time : ℝ) (grid : List Vec3) (L : Vec3) (max_order : ℕ)
    (copt : Option ℝ) :
    point_image_sources x0 signal observation_time grid L max_order
        none copt =
      unweightedPointSum signal observation_time grid copt
        ((image_sources_for_box x0 L max_order).map Prod.fst)
        (zeroField grid) := by
  rw [pis_eq_loop]
  simp only [Option.getD_none]
  exact imageLoop_ones signal observation_time grid copt _ _

/-- C5: skipping images of exactly zero strength does not change the result:
the field of `point_image_sources` equals the naive superposition that
includes every image weighted by its strength; and a zero coefficient at a
wall an image reflects off makes that image's strength exactly zero. -/
theorem C5_skip_equivalence (x0 : Vec3) (signal : DelayedSignal)
    (observation_time : ℝ) (grid : List Vec3) (L : Vec3) (max_order : ℕ)
    (coeffsopt : Option (Fin 6 → ℝ)) (copt : Option ℝ) :
    point_image_sources x0 signal observation_time grid L max_order
        coeffsopt copt =
      weightedSumAll signal observation_time grid copt
        ((image_sources_for_box x0 L max_order).map (fun im =>
          (im.1, sourceStrength (coeffsopt.getD (fun _ => 1)) im.2)))
        (zeroField grid) ∧
    ∀ im ∈ image_sources_for_box x0 L max_order, ∀ w : Fin 6,
      coeffsopt.getD (fun _ => 1) w = 0 → im.2 w ≠ 0 →
        sourceStrength (coeffsopt.getD (fun _ => 1)) im.2 = 0 := by
  constructor
  · rw [pis_eq_loop]
    by_cases he : signal.data = []
    · have hmem : ((x0, sourceStrength (coeffsopt.getD (fun _ => 1))
          (fun _ => 0)) : Vec3 × ℝ) ∈
          (image_sources_for_box x0 L max_order).map (fun im =>
            (im.1, sourceStrength (coeffsopt.getD (fun _ => 1)) im.2)) :=
        List.mem_map_of_mem _ (center_mem_isfb x0 L max_order)
      rw [imageLoop_none he observation_time grid copt _ _
          ⟨_, hmem, by rw [sourceStrength_zeroOrder]; exact one_ne_zero⟩,
        weightedSumAll_none he observation_time grid copt _
          (List.ne_nil_of_mem hmem) _]
    · exact imageLoop_eq_weightedSumAll he observation_time grid copt _ _
        (zeroField_length grid)
  · intro im _ w hcw how
    exact sourceStrength_eq_zero w how hcw

/-- Witness for C5 at a concrete input: in the unit room at order 1, the
first-order image across the `+x` wall gets strength exactly `0` when all
coefficients are zero. -/
theorem C5_skip_equivalence_witness :
    sourceStrength ((some (fun _ => (0 : ℝ))).getD (fun _ => 1))
      ((⟨imagePos1d 0 1 1, imagePos1d 0 1 0, imagePos1d 0 1 0⟩,
        wallOrder 1 0 0) : Vec3 × (Fin 6 → ℕ)).2 = 0 :=
  (C5_skip_equivalence ⟨0, 0, 0⟩ ⟨[(1 : ℝ)], 1, 0⟩ 0 [⟨1, 0, 0⟩] ⟨1, 1, 1⟩ 1
      (some (fun _ => 0)) (some 1)).2
    (⟨imagePos1d 0 1 1, imagePos1d 0 1 0, imagePos1d 0 1 0⟩, wallOrder 1 0 0)
    (by
      rw [isfb_eq_flat]
      refine List.mem_flatMap.mpr ⟨1, by decide, ?_⟩
      rw [isfbPlane]
      refine List.mem_flatMap.mpr ⟨0, by decide, ?_⟩
      rw [isfbRow]
      refine List.mem_filterMap.mpr ⟨0, by decide, ?_⟩
      rw [isfbCell, if_pos (by decide)])
    1 rfl (by decide)

/-- C6: the strength computed by `point_image_sources` for any enumerated
image equals the product over the six reflection coefficients raised to the
image's per-wall reflection counts. -/
theorem C6_strength_formula (x0 L : Vec3) (max_order : ℕ)
    (coeffs : Fin 6 → ℝ) (im : Vec3 × (Fin 6 → ℕ))
    (_him : im ∈ image_sources_for_box x0 L max_order) :
    sourceStrength coeffs im.2 = ∏ i : Fin 6, coeffs i ^ im.2 i :=
  sourceStrength_eq_prod coeffs im.2

/-- Witness for C6 at a concrete enumerated image. -/
theorem C6_strength_formula_witness :
    sourceStrength (fun _ => 2)
        (((⟨0, 0, 0⟩, fun _ => 0) : Vec3 × (Fin 6 → ℕ))).2 =
      ∏ i : Fin 6, (fun _ => (2 : ℝ)) i ^
        (((⟨0, 0, 0⟩, fun _ => 0) : Vec3 × (Fin 6 → ℕ))).2 i :=
  C6_strength_formula ⟨0, 0, 0⟩ ⟨1, 1, 1⟩ 0 (fun _ => 2) _
    (center_mem_isfb ⟨0, 0, 0⟩ ⟨1, 1, 1⟩ 0)

/-- C7: whenever `point` or `point_image_sources` returns a field, it has
exactly one value per grid point. -/
theorem C7_field_shape (xs x0 : Vec3) (signal : DelayedSignal)
    (observation_time : ℝ) (grid : List Vec3) (L : Vec3) (max_order : ℕ)
    (coeffsopt : Option (Fin 6 → ℝ)) (copt : Option ℝ) :
    (∀ F, point xs signal observation_time grid copt = some F →
      F.length = grid.length) ∧
    (∀ F, point_image_sources x0 signal observation_time grid L max_order
        coeffsopt copt = some F → F.length = grid.length) := by
  constructor
  · intro F hF
    by_cases he : signal.data = []
    · rw [point_eq_none he] at hF
      exact absurd hF (by simp)
    · rw [point_eq_some he] at hF
      rw [← Option.some_inj.mp hF, pointField_length]
  · intro F hF
    rw [pis_eq_loop] at hF
    exact imageLoop_length signal observation_time grid copt _ _ F
      (zeroField_length grid) hF

/-- Witness for C7 at a concrete input, for both functions. -/
theorem C7_field_shape_witness :
    (pointField ⟨0, 0, 0⟩ ⟨[(1 : ℝ)], 1, 0⟩ 0 [⟨1, 0, 0⟩]
      ((some (1 : ℝ)).getD defs_c)).length = ([(⟨1, 0, 0⟩ : Vec3)]).length ∧
    (pointField ⟨0, 0, 0⟩ ⟨[(1 : ℝ)], 1, 0⟩ 0 [⟨1, 0, 0⟩]
      ((some (1 : ℝ)).getD defs_c)).length = ([(⟨1, 0, 0⟩ : Vec3)]).length :=
  ⟨(C7_field_shape ⟨0, 0, 0⟩ ⟨0, 0, 0⟩ ⟨[1], 1, 0⟩ 0 [⟨1, 0, 0⟩] ⟨1, 1, 1⟩ 0
        none (some 1)).1 _ (point_eq_some (by simp) _ _ _ _),
   (C7_field_shape ⟨0, 0, 0⟩ ⟨0, 0, 0⟩ ⟨[1], 1, 0⟩ 0 [⟨1, 0, 0⟩] ⟨1, 1, 1⟩ 0
        none (some 1)).2 _
      (by rw [pis_order_zero]; exact point_eq_some (by simp) _ _ _ _)⟩

/-- C8 counterexample: with an empty signal (`N = 0`), `point` does not
return the all-zero field over the grid — it returns no field at all, since
`np.interp` raises on an empty array of sample points. -/
theorem C8_empty_signal_counterexample :
    point ⟨0, 0, 0⟩ ⟨([] : List ℝ), 1, 0⟩ 0 [⟨1, 0, 0⟩] (some 1) = none ∧
    point ⟨0, 0, 0⟩ ⟨([] : List ℝ), 1, 0⟩ 0 [⟨1, 0, 0⟩] (some 1) ≠
      some ([(⟨1, 0, 0⟩ : Vec3)].map (fun _ => (0 : ℝ))) := by
  constructor
  · exact @point_eq_none ⟨[], 1, 0⟩ rfl ⟨0, 0, 0⟩ 0 [⟨1, 0, 0⟩] (some 1)
  · rw [@point_eq_none ⟨[], 1, 0⟩ rfl ⟨0, 0, 0⟩ 0 [⟨1, 0, 0⟩] (some 1)]
    simp

/-- C8 amended: for a signal with zero samples (any sample rate), `point`
raises the `np.interp` empty-sample-points error instead of returning a
field. -/
theorem C8_empty_signal_raises (xs : Vec3) (signal : DelayedSignal)
    (observation_time : ℝ) (grid : List Vec3) (copt : Option ℝ)
    (he : signal.data = []) :
    point xs signal observation_time grid copt = none :=
  point_eq_none he xs observation_time grid copt

/-- Witness for the amended C8 at a concrete input. -/
theorem C8_empty_signal_raises_witness :
    (DelayedSignal.mk ([] : List ℝ) 1 0).data = ([] : List ℝ) ∧
    point ⟨0, 0, 0⟩ ⟨([] : List ℝ), 1, 0⟩ 0 [⟨1, 0, 0⟩] (some 1) = none :=
  ⟨rfl, C8_empty_signal_raises ⟨0, 0, 0⟩ ⟨[], 1, 0⟩ 0 [⟨1, 0, 0⟩] (some 1) rfl⟩

/-- C10: because `0^0 = 1`, a wall's coefficient only affects images that
reflect off that wall: strengths ignore a wall with reflection count zero,
the zeroth-order image always has strength exactly one, and even with all
six coefficients zero `point_image_sources` still contains exactly the real
source's contribution, equalling `point` at the source. -/
theorem C10_zeroth_image (x0 : Vec3) (signal : DelayedSignal)
    (observation_time : ℝ) (grid : List Vec3) (L : Vec3) (max_order : ℕ)
    (copt : Option ℝ) :
    (∀ (coeffs : Fin 6 → ℝ) (w : Fin 6) (v : ℝ) (o : Fin 6 → ℕ), o w = 0 →
      sourceStrength (Function.update coeffs w v) o = sourceStrength coeffs o) ∧
    (∀ coeffs : Fin 6 → ℝ, sourceStrength coeffs (fun _ => 0) = 1) ∧
    point_image_sources x0 signal observation_time grid L max_order
        (some (fun _ => 0)) copt =
      point x0 signal observation_time grid copt :=
  ⟨fun coeffs w v o hw => sourceStrength_update coeffs o w v hw,
   sourceStrength_zeroOrder,
   pis_all_zero_coeffs x0 signal observation_time grid L max_order copt⟩

/-- Witness for C10 at concrete inputs. -/
theorem C10_zeroth_image_witness :
    sourceStrength (Function.update (fun _ => (5 : ℝ)) 0 9) (fun _ => 0) =
      sourceStrength (fun _ => (5 : ℝ)) (fun _ => 0) ∧
    sourceStrength (fun _ => (7 : ℝ)) (fun _ => 0) = 1 ∧
    point_image_sources ⟨0, 0, 0⟩ ⟨[(1 : ℝ)], 1, 0⟩ 0 [⟨1, 0, 0⟩] ⟨1, 1, 1⟩ 1
        (some (fun _ => 0)) (some 1) =
      point ⟨0, 0, 0⟩ ⟨[(1 : ℝ)], 1, 0⟩ 0 [⟨1, 0, 0⟩] (some 1) := by
  obtain ⟨h1, h2, h3⟩ := C10_zeroth_image ⟨0, 0, 0⟩ ⟨[(1 : ℝ)], 1, 0⟩ 0
    [⟨1, 0, 0⟩] ⟨1, 1, 1⟩ 1 (some 1)
  exact ⟨h1 (fun _ => 5) 0 9 (fun _ => 0) rfl, h2 (fun _ => 7), h3⟩

end SFS
